import Mathlib

/-!
Verification development for the GameBlocker enforcement daemon
(repository `ulrichando/GameBlocker`, Rust sources under `src-tauri/src/`).

Each Rust function relevant to the verified properties is shallowly embedded
as an executable Lean definition operating on `Nat` byte values, `List Char`
file contents and explicit state/trace parameters.  Machine integers are
modelled as `Nat` (the embedded code paths never overflow their Rust types on
the reachable domain, as noted at each definition).  Fallible operations
return `Option` or `Except`.
-/

/- ================================================================
   Domain classifier (src-tauri/src/blocking/blocklists.rs)
   ================================================================ -/

/-- Modelled from the spec: the module `blocking/blocklists.rs` is declared in
`blocking/mod.rs` and called from `DnsProxy::should_block`
(`dns_proxy.rs:62`), but its source file is missing from the tree.  Spec §4.1:
"Normalizes domain to lowercase, strips a single leading `www.`."  The
normalized form of a domain string. -/
def normalize_domain (d : String) : String :=
  let lower := d.data.map Char.toLower
  String.mk (if lower.take 4 = "www.".data then lower.drop 4 else lower)

/-- Modelled from the spec: `blocklists::is_domain_blocked` (spec §4.1):
"Returns `true` iff the normalized domain (or its registrable form) is present
in `blocked` and is not present in `allowed`."  Domain sets are modelled as
lists of strings. -/
def is_domain_blocked (domain : String) (blocked allowed : List String) : Bool :=
  let n := normalize_domain domain
  blocked.contains n && !(allowed.contains n)

/- ================================================================
   Schedule evaluator (src-tauri/src/scheduler/engine.rs)
   ================================================================ -/

/-- Embedding of `crate::config::ScheduleEntry` (fields as used by
`scheduler/engine.rs` and `commands/schedule.rs`): `days` holds weekday
indices 0–6 (0 = Sunday), `start_minutes`/`end_minutes` are `u16`
minute-of-day values, here `Nat`. -/
structure ScheduleEntry where
  id : Nat
  name : String
  enabled : Bool
  days : List Nat
  start_minutes : Nat
  end_minutes : Nat
  blocking_enabled : Bool
deriving DecidableEq

/-- Loop body of `should_block_now` (`engine.rs:16-38`): iterate entries in
stored order, skipping disabled entries and entries whose day set excludes
`day`; return `blocking_enabled` of the first entry whose window contains
`now`; default `true` after the loop. -/
def should_block_loop : List ScheduleEntry → Nat → Nat → Bool
  | [], _, _ => true
  | e :: rest, day, now =>
    if e.enabled = false then should_block_loop rest day now
    else if e.days.contains day = false then should_block_loop rest day now
    else if e.start_minutes ≤ e.end_minutes then
      if e.start_minutes ≤ now ∧ now < e.end_minutes then e.blocking_enabled
      else should_block_loop rest day now
    else
      if e.start_minutes ≤ now ∨ now < e.end_minutes then e.blocking_enabled
      else should_block_loop rest day now

/-- Embedding of `should_block_now` (`engine.rs:7-42`).  The ambient clock
reads (`Local::now()` weekday index and minute-of-day) are passed as the
explicit parameters `day` (0–6, 0 = Sunday) and `now` (0–1439). -/
def should_block_now (schedules : List ScheduleEntry) (day now : Nat) : Bool :=
  if schedules.isEmpty then true
  else should_block_loop schedules day now

/-- Predicate: entry `e` matches at weekday `day`, minute `now` — enabled,
day in the day set, and the window contains `now` (`start ≤ now < end` for
`start ≤ end`, wrap-around `now ≥ start ∨ now < end` otherwise). -/
def entry_matches (e : ScheduleEntry) (day now : Nat) : Bool :=
  e.enabled && e.days.contains day &&
    (if e.start_minutes ≤ e.end_minutes
     then decide (e.start_minutes ≤ now ∧ now < e.end_minutes)
     else decide (e.start_minutes ≤ now ∨ now < e.end_minutes))

/-- Per-entry accumulator update of `minutes_until_change`
(`engine.rs:56-80`): same-day start/end boundary candidates (guarded by
`now < boundary`), then the next-day start boundary wrapped through
midnight.  `u32` arithmetic is `Nat` here; on the reachable domain
(`now ≤ 1439` from chrono, `u16` entry fields) no subtraction underflows. -/
def mu_step (day now : Nat) (acc : Nat) (e : ScheduleEntry) : Nat :=
  if e.enabled = false then acc
  else
    let a1 := if e.days.contains day && decide (now < e.start_minutes)
              then min acc (e.start_minutes - now) else acc
    let a2 := if e.days.contains day && decide (now < e.end_minutes)
              then min a1 (e.end_minutes - now) else a1
    if e.days.contains ((day + 1) % 7)
    then min a2 (24 * 60 - now + e.start_minutes) else a2

/-- Embedding of `minutes_until_change` (`engine.rs:45-87`): early `none` on
an empty list, otherwise fold the per-entry minimum starting from the
`u32::MAX` sentinel and map the untouched sentinel back to `none`. -/
def minutes_until_change (schedules : List ScheduleEntry) (day now : Nat) : Option Nat :=
  if schedules.isEmpty then none
  else
    let m := schedules.foldl (mu_step day now) 4294967295
    if m = 4294967295 then none else some m

/-- Specification-style enumeration of the transition-boundary candidates the
loop of `minutes_until_change` takes minima over. -/
def change_candidates (schedules : List ScheduleEntry) (day now : Nat) : List Nat :=
  schedules.flatMap (fun e =>
    if e.enabled = false then []
    else
      (if e.days.contains day && decide (now < e.start_minutes)
       then [e.start_minutes - now] else [])
      ++ (if e.days.contains day && decide (now < e.end_minutes)
          then [e.end_minutes - now] else [])
      ++ (if e.days.contains ((day + 1) % 7)
          then [24 * 60 - now + e.start_minutes] else []))

/- ================================================================
   DNS proxy (src-tauri/src/blocking/network/dns_proxy.rs)
   ================================================================ -/

/-- Continuation byte test for UTF-8 validation: `0x80 ≤ b < 0xC0`. -/
def is_utf8_cont (b : Nat) : Bool := 0x80 ≤ b && b < 0xC0

/-- Decoder for `std::str::from_utf8` as used at `dns_proxy.rs:160`: strict
UTF-8 validation (shortest forms only, surrogates excluded, max `U+10FFFF`),
returning the decoded code points on success and `none` on any invalid
byte sequence. -/
def utf8_decode_chars : List Nat → Option (List Char)
  | [] => some []
  | b :: rest =>
    if b < 0x80 then
      (utf8_decode_chars rest).map (fun cs => Char.ofNat b :: cs)
    else if 0xC2 ≤ b && b ≤ 0xDF then
      match rest with
      | c1 :: r =>
        if is_utf8_cont c1 then
          (utf8_decode_chars r).map
            (fun cs => Char.ofNat ((b - 0xC0) * 0x40 + (c1 - 0x80)) :: cs)
        else none
      | [] => none
    else if b = 0xE0 then
      match rest with
      | c1 :: c2 :: r =>
        if (0xA0 ≤ c1 && c1 < 0xC0) && is_utf8_cont c2 then
          (utf8_decode_chars r).map
            (fun cs => Char.ofNat ((c1 - 0x80) * 0x40 + (c2 - 0x80)) :: cs)
        else none
      | _ => none
    else if (0xE1 ≤ b && b ≤ 0xEC) || (0xEE ≤ b && b ≤ 0xEF) then
      match rest with
      | c1 :: c2 :: r =>
        if is_utf8_cont c1 && is_utf8_cont c2 then
          (utf8_decode_chars r).map
            (fun cs =>
              Char.ofNat ((b - 0xE0) * 0x1000 + (c1 - 0x80) * 0x40 + (c2 - 0x80)) :: cs)
        else none
      | _ => none
    else if b = 0xED then
      match rest with
      | c1 :: c2 :: r =>
        if (0x80 ≤ c1 && c1 < 0xA0) && is_utf8_cont c2 then
          (utf8_decode_chars r).map
            (fun cs =>
              Char.ofNat ((b - 0xE0) * 0x1000 + (c1 - 0x80) * 0x40 + (c2 - 0x80)) :: cs)
        else none
      | _ => none
    else if b = 0xF0 then
      match rest with
      | c1 :: c2 :: c3 :: r =>
        if (0x90 ≤ c1 && c1 < 0xC0) && (is_utf8_cont c2 && is_utf8_cont c3) then
          (utf8_decode_chars r).map
            (fun cs =>
              Char.ofNat ((c1 - 0x80) * 0x1000 + (c2 - 0x80) * 0x40 + (c3 - 0x80)) :: cs)
        else none
      | _ => none
    else if 0xF1 ≤ b && b ≤ 0xF3 then
      match rest with
      | c1 :: c2 :: c3 :: r =>
        if is_utf8_cont c1 && (is_utf8_cont c2 && is_utf8_cont c3) then
          (utf8_decode_chars r).map
            (fun cs =>
              Char.ofNat ((b - 0xF0) * 0x40000 + (c1 - 0x80) * 0x1000
                + (c2 - 0x80) * 0x40 + (c3 - 0x80)) :: cs)
        else none
      | _ => none
    else if b = 0xF4 then
      match rest with
      | c1 :: c2 :: c3 :: r =>
        if (0x80 ≤ c1 && c1 < 0x90) && (is_utf8_cont c2 && is_utf8_cont c3) then
          (utf8_decode_chars r).map
            (fun cs =>
              Char.ofNat ((b - 0xF0) * 0x40000 + (c1 - 0x80) * 0x1000
                + (c2 - 0x80) * 0x40 + (c3 - 0x80)) :: cs)
        else none
      | _ => none
    else none

/-- String form of `std::str::from_utf8(bytes)` (`Ok` ↦ `some`). -/
def utf8_decode (bytes : List Nat) : Option String :=
  (utf8_decode_chars bytes).map String.mk

/-- Label-scanning loop of `parse_dns_domain` (`dns_proxy.rs:149-170`):
`pos` walks the question section reading length-prefixed labels until a zero
byte or the end of the buffer; a length that would read past the buffer end
aborts with `none`; labels that are not valid UTF-8 are silently skipped
(`if let Ok(part) = ...`); finally the collected labels are joined with `"."`
(`none` if no label was collected).  The Rust `while` loop terminates because
`pos` strictly increases; here `fuel` bounds the iteration count and
`parse_labels_fuel_irrelevant` below shows any fuel above `q.length - pos`
gives the same (fuel-independent) result. -/
def parse_labels : Nat → List Nat → Nat → List String → Option String
  | 0, _, _, _ => none
  | fuel + 1, q, pos, acc =>
    if pos < q.length then
      let len := q.getD pos 0
      if len = 0 then
        if acc.isEmpty then none else some (String.intercalate "." acc)
      else if q.length < pos + 1 + len then none
      else
        let acc' :=
          match utf8_decode ((q.drop (pos + 1)).take len) with
          | some part => acc ++ [part]
          | none => acc
        parse_labels fuel q (pos + 1 + len) acc'
    else
      if acc.isEmpty then none else some (String.intercalate "." acc)

/-- Embedding of `parse_dns_domain` (`dns_proxy.rs:140-171`): packets shorter
than 13 bytes yield `none`; otherwise the label scan starts at offset 12
(after the fixed DNS header). -/
def parse_dns_domain (query : List Nat) : Option String :=
  if query.length < 13 then none
  else parse_labels query.length query 12 []

/-- Embedding of `create_nxdomain_response` (`dns_proxy.rs:174-191`): clone
the query and overwrite header bytes 2,3 (flags: `0x81` = QR|RD,
`0x83` = RA | RCODE 3) and 6,7 (answer count := 0). -/
def create_nxdomain_response (query : List Nat) : Option (List Nat) :=
  if query.length < 12 then none
  else some ((((query.set 2 0x81).set 3 0x83).set 6 0).set 7 0)

/-- Outcome of the per-datagram dispatch in `DnsProxy::start`
(`dns_proxy.rs:93-106`). -/
inductive DnsAction where
  | nxdomain : DnsAction
  | forward : DnsAction
deriving DecidableEq

/-- Filtering decision of the serve loop (`dns_proxy.rs:93-106`): answer
NXDOMAIN when the parsed domain is blocked, otherwise (including whenever no
domain parses) forward the query upstream. -/
def serve_action (query : List Nat) (blocked allowed : List String) : DnsAction :=
  match parse_dns_domain query with
  | some domain =>
    if is_domain_blocked domain blocked allowed then DnsAction.nxdomain
    else DnsAction.forward
  | none => DnsAction.forward

/- ================================================================
   IPC framing (src-tauri/src/daemon/ipc.rs)
   ================================================================ -/

/-- Failure modes of the framing layer of `read_message`. -/
inductive IpcReadError where
  | eof : IpcReadError
  | tooLarge : IpcReadError
deriving DecidableEq

/-- Embedding of the framing layer of `read_message` (`ipc.rs:79-103`): read
a 4-byte little-endian length prefix (`read_exact`, error on a short
stream), reject a declared length above 1 MiB before reading anything
further, then read exactly that many payload bytes.  The `serde_json`
deserialization of the payload is outside the framing contract and the
payload is returned raw together with the unread remainder of the stream. -/
def read_message (stream : List Nat) : Except IpcReadError (List Nat × List Nat) :=
  match stream with
  | b0 :: b1 :: b2 :: b3 :: rest =>
    let len := b0 + 0x100 * b1 + 0x10000 * b2 + 0x1000000 * b3
    if 1024 * 1024 < len then Except.error IpcReadError.tooLarge
    else if rest.length < len then Except.error IpcReadError.eof
    else Except.ok (rest.take len, rest.drop len)
  | _ => Except.error IpcReadError.eof

/- ================================================================
   Process termination (src-tauri/src/blocking/process/linux.rs)
   ================================================================ -/

/-- Errors of the `ProcessBlocker` trait as matched in
`LinuxProcessBlocker::terminate_process`. -/
inductive ProcessError where
  | NotFound : ProcessError
  | AccessDenied : ProcessError
  | TerminateFailed : ProcessError
deriving DecidableEq

/-- Errno values relevant to the `nix::sys::signal::kill` match arms
(`linux.rs:54-56`). -/
inductive Errno where
  | ESRCH : Errno
  | EPERM : Errno
  | EINVAL : Errno
deriving DecidableEq

/-- Observable side effects of `terminate_process`, in order. -/
inductive KillAction where
  | sigterm : KillAction
  | sleepGraceMs : Nat → KillAction
  | checkAlive : KillAction
  | sigkill : KillAction
deriving DecidableEq

/-- Abstract state of the target process as seen by the `kill(2)` calls:
whether a process with the pid exists when SIGTERM is sent, whether the
caller may signal it, whether it is still alive at the liveness re-check
after the grace period, and whether the final SIGKILL succeeds. -/
structure ProcWorld where
  alive : Bool
  privileged : Bool
  aliveAfterGrace : Bool
  sigkillOk : Bool
deriving DecidableEq

/-- Kernel contract of `kill(pid, SIGTERM)`: `ESRCH` when no such process,
`EPERM` when the caller lacks permission, success otherwise. -/
def kill_result (w : ProcWorld) : Except Errno Unit :=
  if w.alive = false then Except.error Errno.ESRCH
  else if w.privileged = false then Except.error Errno.EPERM
  else Except.ok ()

/-- Embedding of `LinuxProcessBlocker::terminate_process` (`linux.rs:38-58`):
send SIGTERM; on `ESRCH` return `NotFound`, on `EPERM` return `AccessDenied`;
on success sleep 100 ms, re-check liveness via `kill(pid, None)`, and send
SIGKILL only if the process is still alive (its failure mapping to
`TerminateFailed`).  The second component is the trace of issued actions. -/
def terminate_process (w : ProcWorld) : Except ProcessError Unit × List KillAction :=
  match kill_result w with
  | Except.ok () =>
    let trace := [KillAction.sigterm, KillAction.sleepGraceMs 100, KillAction.checkAlive]
    if w.aliveAfterGrace then
      if w.sigkillOk then (Except.ok (), trace ++ [KillAction.sigkill])
      else (Except.error ProcessError.TerminateFailed, trace ++ [KillAction.sigkill])
    else (Except.ok (), trace)
  | Except.error Errno.ESRCH => (Except.error ProcessError.NotFound, [KillAction.sigterm])
  | Except.error Errno.EPERM => (Except.error ProcessError.AccessDenied, [KillAction.sigterm])
  | Except.error _ => (Except.error ProcessError.TerminateFailed, [KillAction.sigterm])

/- ================================================================
   Hosts-file reconciler (src-tauri/src/blocking/hosts.rs)
   ================================================================ -/

/-- Marker line opening the managed region (`hosts.rs:11`). -/
def marker_start : List Char := "# GameBlocker START - DO NOT EDIT THIS SECTION".data

/-- Marker line closing the managed region (`hosts.rs:12`). -/
def marker_end : List Char := "# GameBlocker END".data

/-- Chunks of a character list split at `'\n'` (always returns at least one
chunk; the separator is consumed). -/
def split_nl : List Char → List (List Char)
  | [] => [[]]
  | c :: rest =>
    if c = '\n' then [] :: split_nl rest
    else
      match split_nl rest with
      | l :: ls => (c :: l) :: ls
      | [] => [[c]]

/-- Drop a single trailing `'\r'`, as `str::lines` does per line. -/
def strip_cr (l : List Char) : List Char :=
  if l.getLast? = some '\r' then l.dropLast else l

/-- Rust `str::lines`: split at `'\n'`, drop one trailing `'\r'` per line,
with the final line ending optional (no trailing empty line). -/
def rust_lines (s : List Char) : List (List Char) :=
  if s.isEmpty then []
  else
    let chunks := split_nl s
    (if s.getLast? = some '\n' then chunks.dropLast else chunks).map strip_cr

/-- Rust `char::is_whitespace` (the Unicode White_Space property), as used by
`str::trim_end`. -/
def rust_is_whitespace (c : Char) : Bool :=
  c = ' ' || c = '\t' || c = '\n' || c = '\r'
  || c.toNat = 0x0B || c.toNat = 0x0C || c.toNat = 0x85 || c.toNat = 0xA0
  || c.toNat = 0x1680 || (0x2000 ≤ c.toNat && c.toNat ≤ 0x200A)
  || c.toNat = 0x2028 || c.toNat = 0x2029 || c.toNat = 0x202F
  || c.toNat = 0x205F || c.toNat = 0x3000

/-- Rust `str::trim_end`: drop trailing whitespace characters. -/
def trim_end (s : List Char) : List Char :=
  (s.reverse.dropWhile rust_is_whitespace).reverse

/-- Substring containment on character lists, as Rust `str::contains` with a
string pattern (`line.contains(MARKER_START)`). -/
def has_sub (m l : List Char) : Bool := decide (m <:+: l)

/-- Line filter of `remove_gameblocker_section` (`hosts.rs:62-82`): scan the
lines with an `in_section` flag; a line containing the start marker turns the
flag on, a line containing the end marker turns it off, both being dropped;
other lines are kept iff the flag is off. -/
def remove_kept : List (List Char) → Bool → List (List Char)
  | [], _ => []
  | l :: ls, inSection =>
    if has_sub marker_start l then remove_kept ls true
    else if has_sub marker_end l then remove_kept ls false
    else if inSection then remove_kept ls inSection
    else l :: remove_kept ls inSection

/-- Reassembly used by `remove_gameblocker_section`: every kept line is
pushed followed by `'\n'`. -/
def join_lines (ls : List (List Char)) : List Char :=
  ls.flatMap (fun l => l ++ ['\n'])

/-- Embedding of `remove_gameblocker_section` (`hosts.rs:62-82`) on file
contents. -/
def remove_gameblocker_section (content : List Char) : List Char :=
  join_lines (remove_kept (rust_lines content) false)

/-- The four loopback entry lines built per blocked domain
(`hosts.rs:367-372`): IPv4 and IPv6, bare domain and its `www.` form. -/
def host_entry_lines (d : List Char) : List (List Char) :=
  ["127.0.0.1 ".data ++ d, "127.0.0.1 www.".data ++ d,
   "::1 ".data ++ d, "::1 www.".data ++ d]

/-- The freshly built managed region appended by `block_domains_direct`
(`hosts.rs:364-374`): a leading newline, the start marker line, the entry
lines, and the end marker line, each line followed by `'\n'`. -/
def gameblocker_section (domains : List (List Char)) : List Char :=
  '\n' :: join_lines (marker_start :: (domains.flatMap host_entry_lines ++ [marker_end]))

/-- Embedding of `block_domains_direct` (`hosts.rs:349-386`) as a transformer
of the hosts-file content (`fs::read_to_string` / `fs::write` become the
argument and result).  An empty domain set returns early without writing, so
the content is unchanged.  Otherwise the existing managed region is removed,
the remainder is right-trimmed, and a fresh region is appended.  The
pkexec-elevated variant `block_domains` (`hosts.rs:15-50`) performs the
identical content transformation. -/
def block_domains_direct (content : List Char) (domains : List (List Char)) : List Char :=
  if domains.isEmpty then content
  else trim_end (remove_gameblocker_section content) ++ gameblocker_section domains

/-- Embedding of `unblock_all_domains_direct` (`hosts.rs:389-395`); the
elevated variant `unblock_all_domains` (`hosts.rs:53-59`) writes the same
content. -/
def unblock_all_domains_direct (content : List Char) : List Char :=
  remove_gameblocker_section content

/-- Number of managed-region marker lines (lines containing either marker)
in a hosts-file content. -/
def marker_line_count (s : List Char) : Nat :=
  ((rust_lines s).filter
    (fun l => has_sub marker_start l || has_sub marker_end l)).length

/- ================================================================
   Theorems
   ================================================================ -/

/-- C1: `is_domain_blocked` returns `false` whenever the normalized domain
(lowercased, single leading `www.` stripped) is in the allowed set, even if it
is also in the blocked set; it returns `true` iff the normalized domain is in
the blocked set and not in the allowed set. -/
theorem is_domain_blocked_allow_wins (d : String) (blocked allowed : List String) :
    (normalize_domain d ∈ allowed → is_domain_blocked d blocked allowed = false) ∧
    (is_domain_blocked d blocked allowed = true ↔
      normalize_domain d ∈ blocked ∧ normalize_domain d ∉ allowed) := by
  constructor
  · intro h
    simp [is_domain_blocked, List.elem_iff, h]
  · simp [is_domain_blocked, List.elem_iff]

theorem is_domain_blocked_allow_wins_witness :
    normalize_domain "WWW.Example.COM" ∈ ["example.com"] ∧
    is_domain_blocked "WWW.Example.COM" ["example.com"] ["example.com"] = false :=
  ⟨by decide,
   (is_domain_blocked_allow_wins "WWW.Example.COM" ["example.com"] ["example.com"]).1
     (by decide)⟩

/-- Helper: the scan loop of `should_block_now` returns the `blocking_enabled`
flag of the first matching entry, defaulting to `true`. -/
theorem should_block_loop_eq (day now : Nat) (es : List ScheduleEntry) :
    should_block_loop es day now
      = ((es.find? (fun e => entry_matches e day now)).map
          (fun e => e.blocking_enabled)).getD true := by
  induction es with
  | nil => simp [should_block_loop]
  | cons e rest ih =>
    rw [List.find?_cons]
    by_cases h1 : e.enabled
    · by_cases h2 : day ∈ e.days
      · by_cases h3 : e.start_minutes ≤ e.end_minutes
        · by_cases h4 : e.start_minutes ≤ now ∧ now < e.end_minutes
          · simp [should_block_loop, entry_matches, h1, h2, h3, h4]
          · simp [should_block_loop, entry_matches, h1, h2, h3, h4, ih]
        · by_cases h4 : e.start_minutes ≤ now ∨ now < e.end_minutes
          · simp [should_block_loop, entry_matches, h1, h2, h3, h4]
          · simp [should_block_loop, entry_matches, h1, h2, h3, h4, ih]
      · simp [should_block_loop, entry_matches, h1, h2, ih]
    · simp [should_block_loop, entry_matches, h1, ih]

/-- C2: `should_block_now` returns `true` on the empty list; otherwise it
scans entries in stored order, skips disabled entries and entries whose day
set excludes the current weekday, returns the `blocking_enabled` flag of the
first entry whose window contains the current minute (`start ≤ now < end`
when `start ≤ end`, `now ≥ start ∨ now < end` on overnight wrap), and
returns `true` when no entry matches. -/
theorem should_block_now_first_match (es : List ScheduleEntry) (day now : Nat) :
    should_block_now [] day now = true ∧
    should_block_now es day now
      = ((es.find? (fun e => entry_matches e day now)).map
          (fun e => e.blocking_enabled)).getD true := by
  refine ⟨by simp [should_block_now], ?_⟩
  cases es with
  | nil => simp [should_block_now]
  | cons e rest =>
    simpa [should_block_now] using should_block_loop_eq day now (e :: rest)

/-- C3 counterexample: the claim says the recursion-desired flag is preserved
from the query, but `create_nxdomain_response` forces byte 2 to `0x81`
(RD = 1) even for a query whose RD bit is 0. -/
theorem create_nxdomain_response_rd_not_preserved :
    ((create_nxdomain_response (List.replicate 12 0)).map
      (fun r => r.getD 2 0 % 2)) = some 1 ∧
    (List.replicate 12 (0 : Nat)).getD 2 0 % 2 = 0 := by
  constructor
  · rfl
  · rfl

/-- C3 (amended): for every query of at least 12 bytes the response is a
byte-for-byte copy of the query except bytes 2, 3, 6, 7, which are set to
`0x81` (QR = 1, RD forced to 1 regardless of the query), `0x83` (RA = 1,
RCODE = 3) and zero answer count; the question section (all bytes beyond the
header, in particular) is preserved byte-for-byte. -/
theorem create_nxdomain_response_spec (q : List Nat) (h : 12 ≤ q.length) :
    ∃ r, create_nxdomain_response q = some r ∧
      r.length = q.length ∧
      r.getD 2 0 = 0x81 ∧ r.getD 3 0 = 0x83 ∧ r.getD 6 0 = 0 ∧ r.getD 7 0 = 0 ∧
      (∀ i, i ≠ 2 → i ≠ 3 → i ≠ 6 → i ≠ 7 → r.getD i 0 = q.getD i 0) ∧
      r.getD 2 0 / 128 % 2 = 1 ∧ r.getD 2 0 % 2 = 1 ∧
      r.getD 3 0 / 128 % 2 = 1 ∧ r.getD 3 0 % 16 = 3 ∧
      256 * r.getD 6 0 + r.getD 7 0 = 0 := by
  have h2 : 2 < q.length := by omega
  have h3 : 3 < q.length := by omega
  have h6 : 6 < q.length := by omega
  have h7 : 7 < q.length := by omega
  refine ⟨(((q.set 2 0x81).set 3 0x83).set 6 0).set 7 0, ?_, ?_, ?_, ?_, ?_, ?_, ?_, ?_, ?_, ?_, ?_, ?_⟩
  · simp [create_nxdomain_response, Nat.not_lt.mpr h]
  · simp
  · simp [List.getD_eq_getElem?_getD, List.getElem?_set, h2]
  · simp [List.getD_eq_getElem?_getD, List.getElem?_set, h3]
  · simp [List.getD_eq_getElem?_getD, List.getElem?_set, h6]
  · simp [List.getD_eq_getElem?_getD, List.getElem?_set, h7]
  · intro i hi2 hi3 hi6 hi7
    simp [List.getD_eq_getElem?_getD,
      List.getElem?_set_ne (by omega : (7 : Nat) ≠ i),
      List.getElem?_set_ne (by omega : (6 : Nat) ≠ i),
      List.getElem?_set_ne (by omega : (3 : Nat) ≠ i),
      List.getElem?_set_ne (by omega : (2 : Nat) ≠ i)]
  · simp [List.getD_eq_getElem?_getD, List.getElem?_set, h2]
  · simp [List.getD_eq_getElem?_getD, List.getElem?_set, h2]
  · simp [List.getD_eq_getElem?_getD, List.getElem?_set, h3]
  · simp [List.getD_eq_getElem?_getD, List.getElem?_set, h3]
  · simp [List.getD_eq_getElem?_getD, List.getElem?_set, h6, h7]

theorem create_nxdomain_response_spec_witness :
    12 ≤ (List.replicate 12 (0 : Nat)).length ∧
    (∃ r, create_nxdomain_response (List.replicate 12 0) = some r ∧
      r.length = (List.replicate 12 (0 : Nat)).length ∧
      r.getD 2 0 = 0x81 ∧ r.getD 3 0 = 0x83 ∧ r.getD 6 0 = 0 ∧ r.getD 7 0 = 0 ∧
      (∀ i, i ≠ 2 → i ≠ 3 → i ≠ 6 → i ≠ 7 →
        r.getD i 0 = (List.replicate 12 (0 : Nat)).getD i 0) ∧
      r.getD 2 0 / 128 % 2 = 1 ∧ r.getD 2 0 % 2 = 1 ∧
      r.getD 3 0 / 128 % 2 = 1 ∧ r.getD 3 0 % 16 = 3 ∧
      256 * r.getD 6 0 + r.getD 7 0 = 0) :=
  ⟨by decide, create_nxdomain_response_spec (List.replicate 12 0) (by decide)⟩

/-- C6: a declared little-endian frame length above 1 MiB makes
`read_message` fail with the protocol-violation error, and the result does
not depend on any byte after the 4-byte prefix (no payload is read). -/
theorem read_message_rejects_oversized (b0 b1 b2 b3 : Nat) (rest rest' : List Nat)
    (h : 1024 * 1024 < b0 + 0x100 * b1 + 0x10000 * b2 + 0x1000000 * b3) :
    read_message (b0 :: b1 :: b2 :: b3 :: rest) = Except.error IpcReadError.tooLarge ∧
    read_message (b0 :: b1 :: b2 :: b3 :: rest)
      = read_message (b0 :: b1 :: b2 :: b3 :: rest') := by
  constructor
  · simp [read_message, h]
  · simp [read_message, h]

theorem read_message_rejects_oversized_witness :
    1024 * 1024 < 0 + 0x100 * 0 + 0x10000 * 32 + 0x1000000 * 0 ∧
    read_message [0, 0, 32, 0, 1, 2, 3] = Except.error IpcReadError.tooLarge :=
  ⟨by norm_num,
   (read_message_rejects_oversized 0 0 32 0 [1, 2, 3] [] (by norm_num)).1⟩

/-- C8: `terminate_process` returns `NotFound` for a nonexistent pid and
`AccessDenied` without privilege; otherwise it sends SIGTERM, sleeps the
100 ms grace period, re-checks liveness, and sends SIGKILL exactly when the
process is still alive after the grace period. -/
theorem terminate_process_policy (w : ProcWorld) :
    (w.alive = false →
      terminate_process w = (Except.error ProcessError.NotFound, [KillAction.sigterm])) ∧
    (w.alive = true → w.privileged = false →
      terminate_process w = (Except.error ProcessError.AccessDenied, [KillAction.sigterm])) ∧
    (w.alive = true → w.privileged = true → w.aliveAfterGrace = false →
      terminate_process w
        = (Except.ok (), [KillAction.sigterm, KillAction.sleepGraceMs 100,
            KillAction.checkAlive])) ∧
    (w.alive = true → w.privileged = true → w.aliveAfterGrace = true →
      (terminate_process w).2
        = [KillAction.sigterm, KillAction.sleepGraceMs 100,
           KillAction.checkAlive, KillAction.sigkill]) := by
  refine ⟨?_, ?_, ?_, ?_⟩
  · intro h; simp [terminate_process, kill_result, h]
  · intro h1 h2; simp [terminate_process, kill_result, h1, h2]
  · intro h1 h2 h3; simp [terminate_process, kill_result, h1, h2, h3]
  · intro h1 h2 h3
    by_cases hk : w.sigkillOk <;>
      simp [terminate_process, kill_result, h1, h2, h3, hk]

theorem terminate_process_policy_witness :
    (⟨false, false, false, false⟩ : ProcWorld).alive = false ∧
    terminate_process ⟨false, false, false, false⟩
      = (Except.error ProcessError.NotFound, [KillAction.sigterm]) :=
  ⟨rfl, (terminate_process_policy ⟨false, false, false, false⟩).1 rfl⟩

/-- Helper: the label scan is fuel-independent once the fuel exceeds the
remaining buffer length — the Rust loop terminates and the fuel is a mere
bound on its iteration count. -/
theorem parse_labels_fuel_irrelevant :
    ∀ (f1 f2 : Nat) (q : List Nat) (pos : Nat) (acc : List String),
      q.length - pos < f1 → q.length - pos < f2 →
      parse_labels f1 q pos acc = parse_labels f2 q pos acc := by
  intro f1
  induction f1 with
  | zero => intro f2 q pos acc h1 h2; omega
  | succ f1 ih =>
    intro f2 q pos acc h1 h2
    cases f2 with
    | zero => omega
    | succ f2 =>
      simp only [parse_labels]
      by_cases hp : pos < q.length
      · simp only [if_pos hp]
        by_cases hz : q.getD pos 0 = 0
        · simp only [if_pos hz]
        · simp only [if_neg hz]
          by_cases hov : q.length < pos + 1 + q.getD pos 0
          · simp only [if_pos hov]
          · simp only [if_neg hov]
            apply ih
            · omega
            · omega
      · simp only [if_neg hp]

/-- Helper: a label length byte that would read past the buffer end aborts
the scan with `none`, at any scan position. -/
theorem parse_labels_overrun (fuel : Nat) (q : List Nat) (pos : Nat) (acc : List String)
    (hf : 1 ≤ fuel) (hp : pos < q.length) (hz : q.getD pos 0 ≠ 0)
    (hov : q.length < pos + 1 + q.getD pos 0) :
    parse_labels fuel q pos acc = none := by
  cases fuel with
  | zero => omega
  | succ fuel =>
    simp only [parse_labels, if_pos hp, if_neg hz, if_pos hov]

/-- C4: `parse_dns_domain` is total (its loop is fuel-insensitive above the
remaining buffer length, mirroring the strictly increasing scan position of
the Rust loop) and never indexes out of bounds; any packet shorter than 13
bytes yields `none`; any label length byte that would read past the buffer
end yields `none`; and a well-formed query for "example.com" decodes to
exactly `"example.com"`. -/
theorem parse_dns_domain_safe :
    (∀ q : List Nat, q.length < 13 → parse_dns_domain q = none) ∧
    (∀ (q : List Nat) (pos : Nat) (acc : List String) (fuel : Nat),
      1 ≤ fuel → pos < q.length → q.getD pos 0 ≠ 0 →
      q.length < pos + 1 + q.getD pos 0 →
      parse_labels fuel q pos acc = none) ∧
    (∀ (q : List Nat) (pos : Nat) (acc : List String) (f1 f2 : Nat),
      q.length - pos < f1 → q.length - pos < f2 →
      parse_labels f1 q pos acc = parse_labels f2 q pos acc) ∧
    parse_dns_domain
        (List.replicate 12 0
          ++ [7, 101, 120, 97, 109, 112, 108, 101, 3, 99, 111, 109, 0, 0, 1, 0, 1])
      = some "example.com" := by
  refine ⟨?_, ?_, ?_, ?_⟩
  · intro q h
    simp [parse_dns_domain, h]
  · intro q pos acc fuel hf hp hz hov
    exact parse_labels_overrun fuel q pos acc hf hp hz hov
  · intro q pos acc f1 f2 h1 h2
    exact parse_labels_fuel_irrelevant f1 f2 q pos acc h1 h2
  · decide

theorem parse_dns_domain_safe_witness :
    ((List.replicate 12 (0 : Nat)).length < 13 ∧
      parse_dns_domain (List.replicate 12 0) = none) ∧
    (1 ≤ 20 ∧ 12 < (List.replicate 12 (0 : Nat) ++ [7, 101, 120]).length ∧
      (List.replicate 12 (0 : Nat) ++ [7, 101, 120]).getD 12 0 ≠ 0 ∧
      (List.replicate 12 (0 : Nat) ++ [7, 101, 120]).length
        < 12 + 1 + (List.replicate 12 (0 : Nat) ++ [7, 101, 120]).getD 12 0 ∧
      parse_labels 20 (List.replicate 12 0 ++ [7, 101, 120]) 12 [] = none) ∧
    ((List.replicate 12 (0 : Nat) ++ [0]).length - 12 < 5 ∧
      (List.replicate 12 (0 : Nat) ++ [0]).length - 12 < 9 ∧
      parse_labels 5 (List.replicate 12 0 ++ [0]) 12 []
        = parse_labels 9 (List.replicate 12 0 ++ [0]) 12 []) :=
  ⟨⟨by decide, parse_dns_domain_safe.1 (List.replicate 12 0) (by decide)⟩,
   ⟨by decide, by decide, by decide, by decide,
    parse_dns_domain_safe.2.1 (List.replicate 12 0 ++ [7, 101, 120]) 12 [] 20
      (by decide) (by decide) (by decide) (by decide)⟩,
   ⟨by decide, by decide,
    parse_dns_domain_safe.2.2.1 (List.replicate 12 0 ++ [0]) 12 [] 5 9
      (by decide) (by decide)⟩⟩

/-- C10: a label whose bytes are not valid UTF-8 is silently omitted and the
remaining labels are still joined with `"."` (so the decoded domain differs
from the encoded question); a length-well-formed query whose only label is
non-UTF-8, or whose question starts directly with the zero terminator,
yields no domain, and the serve loop then forwards the query upstream
unfiltered regardless of the blocked/allowed sets. -/
theorem parse_dns_domain_invalid_utf8_skipped :
    utf8_decode [0xFF] = none ∧
    parse_dns_domain
        (List.replicate 12 0 ++ [3, 97, 98, 99, 1, 0xFF, 3, 99, 111, 109, 0])
      = some "abc.com" ∧
    parse_dns_domain (List.replicate 12 0 ++ [1, 0xFF, 0]) = none ∧
    (∀ (hdr rest : List Nat), hdr.length = 12 →
      parse_dns_domain (hdr ++ 0 :: rest) = none) ∧
    (∀ blocked allowed : List String,
      serve_action (List.replicate 12 0 ++ [1, 0xFF, 0]) blocked allowed
        = DnsAction.forward) ∧
    (∀ blocked allowed : List String,
      serve_action (List.replicate 12 0 ++ [3, 97, 98, 99, 1, 0xFF, 3, 99, 111, 109, 0])
          blocked allowed
        = (if is_domain_blocked "abc.com" blocked allowed then DnsAction.nxdomain
           else DnsAction.forward)) := by
  have hbad : parse_dns_domain (List.replicate 12 0 ++ [1, 0xFF, 0]) = none := by decide
  have hmix : parse_dns_domain
      (List.replicate 12 0 ++ [3, 97, 98, 99, 1, 0xFF, 3, 99, 111, 109, 0])
      = some "abc.com" := by decide
  refine ⟨by decide, hmix, hbad, ?_, ?_, ?_⟩
  · intro hdr rest hlen
    have hlen' : (hdr ++ 0 :: rest).length = 13 + rest.length := by
      simp [hlen]; omega
    have hget : (hdr ++ 0 :: rest).getD 12 0 = 0 := by
      rw [List.getD_eq_getElem?_getD, List.getElem?_append_right (by omega)]
      simp [hlen]
    rw [parse_dns_domain, if_neg (by omega)]
    have hfuel : 1 ≤ (hdr ++ 0 :: rest).length := by omega
    cases hq : (hdr ++ 0 :: rest).length with
    | zero => omega
    | succ n =>
      simp only [parse_labels, if_pos (by omega : 12 < (hdr ++ 0 :: rest).length), hget,
        if_pos rfl]
      simp
  · intro blocked allowed
    have h : parse_dns_domain [0, 0, 0, 0, 0, 0, 0, 0, 0, 0, 0, 0, 1, 255, 0] = none := by
      decide
    simp [serve_action, h]
  · intro blocked allowed
    have h : parse_dns_domain
        [0, 0, 0, 0, 0, 0, 0, 0, 0, 0, 0, 0, 3, 97, 98, 99, 1, 255, 3, 99, 111, 109, 0]
        = some "abc.com" := by decide
    simp [serve_action, h]

theorem parse_dns_domain_invalid_utf8_skipped_witness :
    ((List.replicate 12 (0 : Nat)).length = 12 ∧
      parse_dns_domain (List.replicate 12 0 ++ 0 :: [0, 1, 0, 1]) = none) ∧
    serve_action (List.replicate 12 0 ++ [1, 0xFF, 0]) ["abc.com"] [] = DnsAction.forward ∧
    serve_action (List.replicate 12 0 ++ [3, 97, 98, 99, 1, 0xFF, 3, 99, 111, 109, 0])
        ["abc.com"] []
      = (if is_domain_blocked "abc.com" ["abc.com"] [] then DnsAction.nxdomain
         else DnsAction.forward) :=
  ⟨⟨by decide,
    parse_dns_domain_invalid_utf8_skipped.2.2.2.1 (List.replicate 12 0) [0, 1, 0, 1]
      (by decide)⟩,
   parse_dns_domain_invalid_utf8_skipped.2.2.2.2.1 ["abc.com"] [],
   parse_dns_domain_invalid_utf8_skipped.2.2.2.2.2 ["abc.com"] []⟩

/-- Helper: folding `min` only decreases the accumulator. -/
theorem foldl_min_le_init : ∀ (l : List Nat) (a : Nat), l.foldl min a ≤ a := by
  intro l
  induction l with
  | nil => intro a; exact le_refl a
  | cons x xs ih =>
    intro a
    exact le_trans (ih (min a x)) (min_le_left a x)

/-- Helper: the per-entry accumulator update of `minutes_until_change` is the
`min`-fold over that entry's boundary candidates. -/
theorem mu_step_eq_foldl (day now a : Nat) (e : ScheduleEntry) :
    mu_step day now a e
      = ((if e.enabled = false then []
          else
            (if e.days.contains day && decide (now < e.start_minutes)
             then [e.start_minutes - now] else [])
            ++ (if e.days.contains day && decide (now < e.end_minutes)
                then [e.end_minutes - now] else [])
            ++ (if e.days.contains ((day + 1) % 7)
                then [24 * 60 - now + e.start_minutes] else []))).foldl min a := by
  by_cases h0 : e.enabled = false
  · simp [mu_step, h0]
  · by_cases hm : day ∈ e.days <;>
      by_cases hs : now < e.start_minutes <;>
        by_cases he : now < e.end_minutes <;>
          by_cases h3 : (day + 1) % 7 ∈ e.days <;>
            simp [mu_step, h0, hm, hs, he, h3, min_assoc]

/-- Helper: the full fold of `minutes_until_change` is the `min`-fold over
all boundary candidates. -/
theorem minutes_fold_eq (day now : Nat) :
    ∀ (es : List ScheduleEntry) (a : Nat),
      es.foldl (mu_step day now) a = (change_candidates es day now).foldl min a := by
  intro es
  induction es with
  | nil => intro a; rfl
  | cons e rest ih =>
    intro a
    rw [List.foldl_cons, mu_step_eq_foldl, ih]
    have hsplit : change_candidates (e :: rest) day now
        = ((if e.enabled = false then []
            else
              (if e.days.contains day && decide (now < e.start_minutes)
               then [e.start_minutes - now] else [])
              ++ (if e.days.contains day && decide (now < e.end_minutes)
                  then [e.end_minutes - now] else [])
              ++ (if e.days.contains ((day + 1) % 7)
                  then [24 * 60 - now + e.start_minutes] else [])))
          ++ change_candidates rest day now := rfl
    rw [hsplit, List.foldl_append]

/-- Helper: every boundary candidate is below the `u32::MAX` sentinel, given
the `u16` bounds of the schedule fields. -/
theorem change_candidates_bounded (es : List ScheduleEntry) (day now : Nat)
    (hb : ∀ e ∈ es, e.start_minutes < 65536 ∧ e.end_minutes < 65536) :
    ∀ x ∈ change_candidates es day now, x < 4294967295 := by
  intro x hx
  rw [change_candidates, List.mem_flatMap] at hx
  obtain ⟨e, he, hx⟩ := hx
  have hbe := hb e he
  by_cases h0 : e.enabled = false
  · simp [h0] at hx
  · by_cases hm : day ∈ e.days <;>
      by_cases hs : now < e.start_minutes <;>
        by_cases hend : now < e.end_minutes <;>
          by_cases h3 : (day + 1) % 7 ∈ e.days <;>
            simp [h0, hm, hs, hend, h3] at hx <;>
            omega

/-- C9 counterexample: the claim says `minutes_until_change` returns `none`
exactly when the entry list is empty, but a non-empty list whose only entry
is disabled also returns `none`. -/
theorem minutes_until_change_none_nonempty :
    minutes_until_change [⟨0, "d", false, [1], 480, 900, true⟩] 1 600 = none ∧
    ([⟨0, "d", false, [1], 480, 900, true⟩] : List ScheduleEntry) ≠ [] := by
  constructor
  · decide
  · decide

/-- C9 (amended): over entries whose minute fields fit in `u16`,
`minutes_until_change` returns the minimum candidate offset across all
enabled entries (same-day start/end boundaries guarded by `now < boundary`,
next-day start boundaries wrapped through midnight), and returns `none`
exactly when no enabled entry contributes a candidate — in particular on the
empty list, but also e.g. when every entry is disabled. -/
theorem minutes_until_change_min (es : List ScheduleEntry) (day now : Nat)
    (hb : ∀ e ∈ es, e.start_minutes < 65536 ∧ e.end_minutes < 65536) :
    minutes_until_change es day now = (change_candidates es day now).min? ∧
    (minutes_until_change es day now = none ↔ change_candidates es day now = []) := by
  have hmain : minutes_until_change es day now = (change_candidates es day now).min? := by
    by_cases hes : es.isEmpty
    · have h : es = [] := by
        cases es with
        | nil => rfl
        | cons e r => simp at hes
      subst h
      rfl
    · rw [minutes_until_change, if_neg hes, minutes_fold_eq]
      cases hc : change_candidates es day now with
      | nil => simp
      | cons c cs =>
        have hcmem : c ∈ change_candidates es day now := by rw [hc]; exact List.mem_cons_self c cs
        have hclt : c < 4294967295 := change_candidates_bounded es day now hb c hcmem
        have hfold : (c :: cs).foldl min 4294967295 = cs.foldl min c := by
          rw [List.foldl_cons, min_eq_right (le_of_lt hclt)]
        have hle : cs.foldl min c ≤ c := foldl_min_le_init cs c
        have hne : ¬ (cs.foldl min c = 4294967295) := by omega
        simp only [hfold, if_neg hne]
        rfl
  refine ⟨hmain, ?_⟩
  rw [hmain]
  exact List.min?_eq_none_iff

theorem minutes_until_change_min_witness :
    (∀ e ∈ ([⟨0, "s", true, [1], 480, 900, true⟩] : List ScheduleEntry),
      e.start_minutes < 65536 ∧ e.end_minutes < 65536) ∧
    (minutes_until_change [⟨0, "s", true, [1], 480, 900, true⟩] 1 600
        = (change_candidates [⟨0, "s", true, [1], 480, 900, true⟩] 1 600).min? ∧
      (minutes_until_change [⟨0, "s", true, [1], 480, 900, true⟩] 1 600 = none ↔
        change_candidates [⟨0, "s", true, [1], 480, 900, true⟩] 1 600 = [])) :=
  ⟨by decide,
   minutes_until_change_min [⟨0, "s", true, [1], 480, 900, true⟩] 1 600 (by decide)⟩

/-- Helper: `split_nl` always produces at least one chunk. -/
theorem split_nl_ne_nil : ∀ s : List Char, split_nl s ≠ [] := by
  intro s
  cases s with
  | nil => simp [split_nl]
  | cons c rest =>
    rw [split_nl]
    by_cases h : c = '\n'
    · simp [h]
    · simp only [if_neg h]
      cases hs : split_nl rest with
      | nil => simp
      | cons l ls => simp

/-- Helper: chunks produced by `split_nl` contain no newline. -/
theorem split_nl_no_nl : ∀ (s : List Char) (l : List Char), l ∈ split_nl s → '\n' ∉ l := by
  intro s
  induction s with
  | nil =>
    intro l hl
    simp [split_nl] at hl
    simp [hl]
  | cons c rest ih =>
    intro l hl
    rw [split_nl] at hl
    by_cases h : c = '\n'
    · simp only [if_pos h] at hl
      rcases List.mem_cons.mp hl with h' | h'
      · simp [h']
      · exact ih l h'
    · simp only [if_neg h] at hl
      cases hs : split_nl rest with
      | nil => exact absurd hs (split_nl_ne_nil rest)
      | cons m ms =>
        rw [hs] at hl
        rcases List.mem_cons.mp hl with h' | h'
        · subst h'
          intro hmem
          rcases List.mem_cons.mp hmem with h'' | h''
          · exact h h''.symm
          · exact ih m (by simp [hs]) h''
        · exact ih l (by simp [hs, h'])

/-- Helper: splitting distributes over a newline separator. -/
theorem split_nl_append : ∀ a b : List Char, split_nl (a ++ '\n' :: b) = split_nl a ++ split_nl b := by
  intro a b
  induction a with
  | nil => simp [split_nl]
  | cons c rest ih =>
    by_cases h : c = '\n'
    · simp only [List.cons_append, split_nl, if_pos h]
      simpa using ih
    · simp only [List.cons_append, split_nl, if_neg h, List.append_eq]
      rw [ih]
      cases hs : split_nl rest with
      | nil => exact absurd hs (split_nl_ne_nil rest)
      | cons m ms => simp [hs]

/-- Helper: characters of a chunk come from the split string. -/
theorem split_nl_chars : ∀ (s l : List Char), l ∈ split_nl s → ∀ c ∈ l, c ∈ s := by
  intro s
  induction s with
  | nil =>
    intro l hl
    simp [split_nl] at hl
    simp [hl]
  | cons d rest ih =>
    intro l hl c hc
    rw [split_nl] at hl
    by_cases h : d = '\n'
    · simp only [if_pos h] at hl
      rcases List.mem_cons.mp hl with h' | h'
      · simp [h'] at hc
      · exact List.mem_cons_of_mem d (ih l h' c hc)
    · simp only [if_neg h] at hl
      cases hs : split_nl rest with
      | nil => exact absurd hs (split_nl_ne_nil rest)
      | cons m ms =>
        rw [hs] at hl
        rcases List.mem_cons.mp hl with h' | h'
        · subst h'
          rcases List.mem_cons.mp hc with h'' | h''
          · simp [h'']
          · exact List.mem_cons_of_mem d (ih m (by simp [hs]) c h'')
        · exact List.mem_cons_of_mem d (ih l (by simp [hs, h']) c hc)

/-- Helper: rejoining the chunks restores the string plus a final newline. -/
theorem join_split : ∀ s : List Char, join_lines (split_nl s) = s ++ ['\n'] := by
  intro s
  induction s with
  | nil => simp [split_nl, join_lines]
  | cons c rest ih =>
    by_cases h : c = '\n'
    · simp only [split_nl, if_pos h, join_lines, List.flatMap_cons]
      rw [join_lines] at ih
      simp [ih, h]
    · simp only [split_nl, if_neg h]
      cases hs : split_nl rest with
      | nil => exact absurd hs (split_nl_ne_nil rest)
      | cons m ms =>
        rw [hs] at ih
        simp only [join_lines, List.flatMap_cons] at ih ⊢
        simp [← ih]

/-- Helper: a newline-free string is a single chunk. -/
theorem split_nl_no_nl_eq : ∀ l : List Char, '\n' ∉ l → split_nl l = [l] := by
  intro l
  induction l with
  | nil => intro _; rfl
  | cons c rest ih =>
    intro h
    have hc : ¬ c = '\n' := fun hc => h (by simp [hc])
    have hr : '\n' ∉ rest := fun hr => h (List.mem_cons_of_mem c hr)
    rw [split_nl, if_neg hc, ih hr]

/-- Helper: splitting a joined line list recovers the lines plus one empty
trailing chunk, provided no line contains a newline. -/
theorem split_nl_join : ∀ ls : List (List Char), (∀ l ∈ ls, '\n' ∉ l) →
    split_nl (join_lines ls) = ls ++ [[]] := by
  intro ls
  induction ls with
  | nil => intro _; rfl
  | cons l rest ih =>
    intro h
    have hl : '\n' ∉ l := h l (List.mem_cons_self l rest)
    have hrest : ∀ m ∈ rest, '\n' ∉ m := fun m hm => h m (List.mem_cons_of_mem l hm)
    have : join_lines (l :: rest) = l ++ '\n' :: join_lines rest := by
      simp [join_lines]
    rw [this, split_nl_append, split_nl_no_nl_eq l hl, ih hrest]
    simp

/-- Helper: a string with no carriage return is unchanged by `strip_cr`. -/
theorem strip_cr_no_cr (l : List Char) (h : '\r' ∉ l) : strip_cr l = l := by
  rw [strip_cr]
  cases hg : l.getLast? with
  | none => simp
  | some c =>
    by_cases hc : c = '\r'
    · subst hc
      exact absurd (List.mem_of_mem_getLast? hg) h
    · simp [Option.some_inj, hc]

/-- Helper: characters of `strip_cr l` come from `l`. -/
theorem strip_cr_chars (l : List Char) (c : Char) (hc : c ∈ strip_cr l) : c ∈ l := by
  rw [strip_cr] at hc
  by_cases h : l.getLast? = some '\r'
  · rw [if_pos h] at hc
    exact List.dropLast_subset l hc
  · rwa [if_neg h] at hc

/-- Helper: the last character of a non-empty line join is the newline. -/
theorem join_lines_getLast : ∀ ls : List (List Char), ls ≠ [] →
    (join_lines ls).getLast? = some '\n' := by
  intro ls
  induction ls with
  | nil => intro h; exact absurd rfl h
  | cons l rest ih =>
    intro _
    have hj : join_lines (l :: rest) = (l ++ ['\n']) ++ join_lines rest := by
      simp [join_lines]
    rw [hj]
    cases hr : rest with
    | nil =>
      simp [join_lines]
    | cons m ms =>
      subst hr
      rw [List.getLast?_append_of_ne_nil]
      · exact ih (by simp)
      · simp only [join_lines, List.flatMap_cons]
        simp

/-- Helper: a non-empty line join is a non-empty string. -/
theorem join_lines_ne_nil : ∀ (m : List Char) (ms : List (List Char)),
    join_lines (m :: ms) ≠ [] := by
  intro m ms
  simp only [join_lines, List.flatMap_cons]
  simp

/-- Helper: reading back the lines of a string of the shape
`s ++ '\n' :: join_lines ls` (for newline-free `ls`) yields the chunks of
`s` followed by the lines `ls`, all `strip_cr`-normalized. -/
theorem rust_lines_join_affix (s : List Char) (ls : List (List Char))
    (h : ∀ l ∈ ls, '\n' ∉ l) :
    rust_lines (s ++ '\n' :: join_lines ls)
      = (split_nl s).map strip_cr ++ ls.map strip_cr := by
  have hne : (s ++ '\n' :: join_lines ls).isEmpty = false := by
    cases s <;> simp
  have hlast : (s ++ '\n' :: join_lines ls).getLast? = some '\n' := by
    cases hls : ls with
    | nil =>
      simp only [hls, join_lines, List.flatMap_nil]
      exact List.getLast?_concat s
    | cons m ms =>
      have h1 : s ++ '\n' :: join_lines (m :: ms)
          = s ++ (['\n'] ++ join_lines (m :: ms)) := rfl
      rw [h1, List.getLast?_append_of_ne_nil s (by simp),
        List.getLast?_append_of_ne_nil ['\n'] (join_lines_ne_nil m ms)]
      exact join_lines_getLast (m :: ms) (by simp)
  rw [rust_lines]
  simp only [hne, hlast, Bool.false_eq_true, if_false, if_pos]
  rw [split_nl_append, split_nl_join ls h, ← List.append_assoc, List.dropLast_concat,
    List.map_append]

/-- Helper: reading back a joined newline-free line list yields the lines,
`strip_cr`-normalized. -/
theorem rust_lines_join (ls : List (List Char)) (h : ∀ l ∈ ls, '\n' ∉ l) :
    rust_lines (join_lines ls) = ls.map strip_cr := by
  cases hls : ls with
  | nil => rfl
  | cons m ms =>
    subst hls
    have hm : '\n' ∉ m := h m (List.mem_cons_self m ms)
    have hms : ∀ l ∈ ms, '\n' ∉ l := fun l hl => h l (List.mem_cons_of_mem m hl)
    have hjoin : join_lines (m :: ms) = m ++ '\n' :: join_lines ms := by
      simp [join_lines]
    rw [hjoin, rust_lines_join_affix m ms hms, split_nl_no_nl_eq m hm]
    rfl

/-- Helper: lines kept by the section filter come from the input lines. -/
theorem remove_kept_sub : ∀ (ls : List (List Char)) (b : Bool) (l : List Char),
    l ∈ remove_kept ls b → l ∈ ls := by
  intro ls
  induction ls with
  | nil => intro b l h; simp [remove_kept] at h
  | cons m ms ih =>
    intro b l h
    rw [remove_kept] at h
    by_cases h1 : has_sub marker_start m
    · simp only [if_pos h1] at h
      exact List.mem_cons_of_mem m (ih true l h)
    · simp only [if_neg h1] at h
      by_cases h2 : has_sub marker_end m
      · simp only [if_pos h2] at h
        exact List.mem_cons_of_mem m (ih false l h)
      · simp only [if_neg h2] at h
        by_cases h3 : b
        · simp only [if_pos h3] at h
          exact List.mem_cons_of_mem m (ih b l h)
        · simp only [if_neg h3] at h
          rcases List.mem_cons.mp h with h' | h'
          · simp [h']
          · exact List.mem_cons_of_mem m (ih b l h')

/-- Helper: lines kept by the section filter contain neither marker. -/
theorem remove_kept_clean : ∀ (ls : List (List Char)) (b : Bool) (l : List Char),
    l ∈ remove_kept ls b →
    has_sub marker_start l = false ∧ has_sub marker_end l = false := by
  intro ls
  induction ls with
  | nil => intro b l h; simp [remove_kept] at h
  | cons m ms ih =>
    intro b l h
    rw [remove_kept] at h
    by_cases h1 : has_sub marker_start m
    · simp only [if_pos h1] at h
      exact ih true l h
    · simp only [if_neg h1] at h
      by_cases h2 : has_sub marker_end m
      · simp only [if_pos h2] at h
        exact ih false l h
      · simp only [if_neg h2] at h
        by_cases h3 : b
        · simp only [if_pos h3] at h
          exact ih b l h
        · simp only [if_neg h3] at h
          rcases List.mem_cons.mp h with h' | h'
          · subst h'
            exact ⟨Bool.eq_false_iff.mpr h1, Bool.eq_false_iff.mpr h2⟩
          · exact ih b l h'

/-- Helper: the section filter keeps a block of marker-free lines unchanged
when outside the managed region. -/
theorem remove_kept_append_clean :
    ∀ (A rest : List (List Char)),
    (∀ l ∈ A, has_sub marker_start l = false ∧ has_sub marker_end l = false) →
    remove_kept (A ++ rest) false = A ++ remove_kept rest false := by
  intro A
  induction A with
  | nil => intro rest _; rfl
  | cons m ms ih =>
    intro rest h
    have hm := h m (List.mem_cons_self m ms)
    have hms : ∀ l ∈ ms, has_sub marker_start l = false ∧ has_sub marker_end l = false :=
      fun l hl => h l (List.mem_cons_of_mem m hl)
    rw [List.cons_append, remove_kept, if_neg (by simp [hm.1]), if_neg (by simp [hm.2]),
      if_neg (by simp), ih rest hms]
    rfl

/-- Helper: the section filter drops a block of marker-free lines when inside
the managed region. -/
theorem remove_kept_skip_clean :
    ∀ (A rest : List (List Char)),
    (∀ l ∈ A, has_sub marker_start l = false ∧ has_sub marker_end l = false) →
    remove_kept (A ++ rest) true = remove_kept rest true := by
  intro A
  induction A with
  | nil => intro rest _; rfl
  | cons m ms ih =>
    intro rest h
    have hm := h m (List.mem_cons_self m ms)
    have hms : ∀ l ∈ ms, has_sub marker_start l = false ∧ has_sub marker_end l = false :=
      fun l hl => h l (List.mem_cons_of_mem m hl)
    rw [List.cons_append, remove_kept, if_neg (by simp [hm.1]), if_neg (by simp [hm.2]),
      if_pos rfl]
    exact ih rest hms

/-- Helper: substring containment in Prop form. -/
theorem has_sub_iff (m l : List Char) : has_sub m l = true ↔ m <:+: l := by
  simp [has_sub]

/-- Helper: a substring of the `strip_cr`-normalized line is a substring of
the line. -/
theorem has_sub_strip_cr (m l : List Char) (h : has_sub m (strip_cr l) = true) :
    has_sub m l = true := by
  rw [has_sub_iff] at h ⊢
  rw [strip_cr] at h
  by_cases hg : l.getLast? = some '\r'
  · rw [if_pos hg] at h
    exact List.IsInfix.trans h (List.IsPrefix.isInfix (List.dropLast_prefix l))
  · rwa [if_neg hg] at h

/-- Helper: a newline-free prefix of `a ++ '\n' :: b` is a prefix of `a`. -/
theorem pre_split : ∀ (m : List Char), '\n' ∉ m →
    ∀ (a b : List Char), m <+: a ++ '\n' :: b → m <+: a := by
  intro m
  induction m with
  | nil => intro _ a b _; exact List.nil_prefix
  | cons c cm ih =>
    intro hnl a b hp
    have hc : c ≠ '\n' := fun h => hnl (by simp [h])
    have hcm : '\n' ∉ cm := fun h => hnl (List.mem_cons_of_mem c h)
    cases a with
    | nil =>
      rcases hp with ⟨t, ht⟩
      simp only [List.cons_append, List.nil_append] at ht
      exact absurd (List.cons.inj ht).1 hc
    | cons d a' =>
      rcases hp with ⟨t, ht⟩
      simp only [List.cons_append] at ht
      obtain ⟨hcd, hrest⟩ := List.cons.inj ht
      have hpre : cm <+: a' ++ '\n' :: b := ⟨t, hrest⟩
      rcases ih hcm a' b hpre with ⟨t', ht'⟩
      exact ⟨t', by simp [List.cons_append, hcd, ht']⟩

/-- Helper: a non-empty newline-free infix of `a ++ '\n' :: b` is an infix of
`a` or of `b`. -/
theorem infix_split_aux (m : List Char) (hnl : '\n' ∉ m) :
    ∀ (s a b t : List Char), s ++ m ++ t = a ++ '\n' :: b → m <:+: a ∨ m <:+: b := by
  intro s
  induction s with
  | nil =>
    intro a b t hst
    left
    have hp : m <+: a ++ '\n' :: b := ⟨t, by simpa using hst⟩
    exact List.IsPrefix.isInfix (pre_split m hnl a b hp)
  | cons d s' ih =>
    intro a b t hst
    cases a with
    | nil =>
      simp only [List.cons_append, List.append_assoc, List.nil_append] at hst
      obtain ⟨hd, hb⟩ := List.cons.inj hst
      right
      exact ⟨s', t, by simpa [List.append_assoc] using hb⟩
    | cons e a' =>
      simp only [List.cons_append, List.append_assoc] at hst
      obtain ⟨hde, hrest⟩ := List.cons.inj hst
      rcases ih a' b t (by simpa [List.append_assoc] using hrest) with h | h
      · exact Or.inl (List.infix_cons h)
      · exact Or.inr h

/-- Helper: a non-empty newline-free infix of a line join is an infix of one
of the lines. -/
theorem infix_join_mem (m : List Char) (hnl : '\n' ∉ m) (hne : m ≠ []) :
    ∀ ls : List (List Char), m <:+: join_lines ls → ∃ l ∈ ls, m <:+: l := by
  intro ls
  induction ls with
  | nil =>
    intro h
    rw [show join_lines [] = [] from rfl] at h
    exact absurd (List.eq_nil_of_infix_nil h) hne
  | cons l rest ih =>
    intro h
    rw [show join_lines (l :: rest) = l ++ '\n' :: join_lines rest by simp [join_lines]] at h
    obtain ⟨s, t, hst⟩ := h
    rcases infix_split_aux m hnl s l (join_lines rest) t hst with h' | h'
    · exact ⟨l, List.mem_cons_self l rest, h'⟩
    · rcases ih h' with ⟨l', hl', hinf⟩
      exact ⟨l', List.mem_cons_of_mem l hl', hinf⟩

/-- Helper: dropping trailing whitespace after a final newline is dropping it
from the base string. -/
theorem trim_end_append_nl (s : List Char) : trim_end (s ++ ['\n']) = trim_end s := by
  rw [trim_end, trim_end, List.reverse_append]
  simp [List.dropWhile_cons, rust_is_whitespace]

/-- Helper: `trim_end` is idempotent. -/
theorem trim_end_idem (s : List Char) : trim_end (trim_end s) = trim_end s := by
  rw [trim_end, trim_end, List.reverse_reverse]
  cases hd : s.reverse.dropWhile rust_is_whitespace with
  | nil => simp
  | cons c r =>
    have hc : rust_is_whitespace c = false := by
      have := List.head?_dropWhile_not rust_is_whitespace s.reverse
      rw [hd] at this
      simpa using this
    rw [List.dropWhile_cons, hc]
    simp

/-- Helper: `trim_end s` is a prefix of `s`. -/
theorem trim_end_pre (s : List Char) : trim_end s <+: s := by
  rw [trim_end]
  have h := List.dropWhile_suffix (l := s.reverse) rust_is_whitespace
  have h2 : (s.reverse.dropWhile rust_is_whitespace).reverse <+: s.reverse.reverse :=
    List.reverse_suffix.mp (by simpa using h)
  simpa using h2

/-- Helper: characters of `trim_end s` come from `s`. -/
theorem trim_end_chars (s : List Char) (c : Char) (hc : c ∈ trim_end s) : c ∈ s :=
  List.IsPrefix.subset (trim_end_pre s) hc

/-- Helper: characters of a line join are newlines or come from a line. -/
theorem join_lines_chars (ls : List (List Char)) (c : Char) (hc : c ∈ join_lines ls) :
    c = '\n' ∨ ∃ l ∈ ls, c ∈ l := by
  rw [join_lines, List.mem_flatMap] at hc
  obtain ⟨l, hl, hcl⟩ := hc
  rcases List.mem_append.mp hcl with h | h
  · exact Or.inr ⟨l, hl, h⟩
  · simp at h
    exact Or.inl h

/-- Helper: characters of a line of `rust_lines s` come from `s`. -/
theorem rust_lines_chars (s l : List Char) (hl : l ∈ rust_lines s) : ∀ c ∈ l, c ∈ s := by
  by_cases he : s.isEmpty
  · simp [rust_lines, he] at hl
  · simp only [rust_lines, he, Bool.false_eq_true, if_false] at hl
    obtain ⟨ch, hch, hcheq⟩ := List.mem_map.mp hl
    have hch' : ch ∈ split_nl s := by
      by_cases hg : s.getLast? = some '\n'
      · rw [if_pos hg] at hch
        exact List.dropLast_subset _ hch
      · rwa [if_neg hg] at hch
    intro c hc
    rw [← hcheq] at hc
    exact split_nl_chars s ch hch' c (strip_cr_chars ch c hc)

/-- Helper: lines of `rust_lines s` contain no newline. -/
theorem rust_lines_no_nl (s l : List Char) (hl : l ∈ rust_lines s) : '\n' ∉ l := by
  by_cases he : s.isEmpty
  · simp [rust_lines, he] at hl
  · simp only [rust_lines, he, Bool.false_eq_true, if_false] at hl
    obtain ⟨ch, hch, hcheq⟩ := List.mem_map.mp hl
    have hch' : ch ∈ split_nl s := by
      by_cases hg : s.getLast? = some '\n'
      · rw [if_pos hg] at hch
        exact List.dropLast_subset _ hch
      · rwa [if_neg hg] at hch
    intro hc
    rw [← hcheq] at hc
    exact split_nl_no_nl s ch hch' (strip_cr_chars ch '\n' hc)

/-- Helper: characters of the cleaned content are newlines or come from the
original content. -/
theorem remove_section_chars (content : List Char) (c : Char)
    (hc : c ∈ remove_gameblocker_section content) : c = '\n' ∨ c ∈ content := by
  rw [remove_gameblocker_section] at hc
  rcases join_lines_chars _ c hc with h | ⟨l, hl, hcl⟩
  · exact Or.inl h
  · exact Or.inr (rust_lines_chars content l (remove_kept_sub _ false l hl) c hcl)

/-- Helper: the trimmed cleaned content of a carriage-return-free file is
carriage-return-free. -/
theorem trim_remove_no_cr (content : List Char) (h : '\r' ∉ content) :
    '\r' ∉ trim_end (remove_gameblocker_section content) := by
  intro hc
  rcases remove_section_chars content '\r' (trim_end_chars _ '\r' hc) with h' | h'
  · simp at h'
  · exact h h'

/-- Helper: every line read back from the cleaned content is marker-free. -/
theorem remove_lines_clean (content l : List Char)
    (hl : l ∈ rust_lines (remove_gameblocker_section content)) :
    has_sub marker_start l = false ∧ has_sub marker_end l = false := by
  rw [remove_gameblocker_section] at hl
  have hnl : ∀ m ∈ remove_kept (rust_lines content) false, '\n' ∉ m :=
    fun m hm => rust_lines_no_nl content m (remove_kept_sub _ false m hm)
  rw [rust_lines_join _ hnl] at hl
  obtain ⟨k, hk, hkeq⟩ := List.mem_map.mp hl
  have hclean := remove_kept_clean _ false k hk
  subst hkeq
  constructor
  · by_contra hpos
    have : has_sub marker_start k = true := has_sub_strip_cr _ k (by
      cases h : has_sub marker_start (strip_cr k)
      · exact absurd h hpos
      · rfl)
    simp [this] at hclean
  · by_contra hpos
    have : has_sub marker_end k = true := has_sub_strip_cr _ k (by
      cases h : has_sub marker_end (strip_cr k)
      · exact absurd h hpos
      · rfl)
    simp [this] at hclean

/-- C5 counterexample: the claim says apply(∅) leaves zero managed-region
marker lines even when a managed region was already present; in fact
`block_domains`/`block_domains_direct` return early on an empty domain set
and the pre-existing markers survive. -/
theorem block_domains_empty_keeps_markers :
    block_domains_direct
        ("# GameBlocker START - DO NOT EDIT THIS SECTION\n127.0.0.1 x\n# GameBlocker END\n".data)
        []
      = "# GameBlocker START - DO NOT EDIT THIS SECTION\n127.0.0.1 x\n# GameBlocker END\n".data ∧
    marker_line_count
        ("# GameBlocker START - DO NOT EDIT THIS SECTION\n127.0.0.1 x\n# GameBlocker END\n".data)
      ≠ 0 := by
  constructor
  · rfl
  · decide

/-- C5 (amended): clear (`unblock_all_domains_direct`) always leaves zero
managed-region marker lines, for every prior content; apply(∅)
(`block_domains_direct` with an empty set) leaves the file content unchanged
(so pre-existing markers survive — see the counterexample). -/
theorem hosts_clear_removes_markers (content : List Char) :
    marker_line_count (unblock_all_domains_direct content) = 0 ∧
    block_domains_direct content [] = content := by
  constructor
  · rw [marker_line_count, List.length_eq_zero, List.filter_eq_nil_iff]
    intro l hl
    have h := remove_lines_clean content l hl
    simp [h.1, h.2]
  · rfl

/-- Helper: the head chunk of `split_nl` is a prefix of the string. -/
theorem split_nl_head_pre : ∀ (s h : List Char) (t : List (List Char)),
    split_nl s = h :: t → h <+: s := by
  intro s
  induction s with
  | nil =>
    intro h t hs
    rw [split_nl] at hs
    obtain ⟨hh, _⟩ := List.cons.inj hs
    rw [← hh]
  | cons c rest ih =>
    intro h t hs
    rw [split_nl] at hs
    by_cases hc : c = '\n'
    · rw [if_pos hc] at hs
      obtain ⟨hh, _⟩ := List.cons.inj hs
      rw [← hh]
      exact List.nil_prefix
    · rw [if_neg hc] at hs
      cases hr : split_nl rest with
      | nil => exact absurd hr (split_nl_ne_nil rest)
      | cons m ms =>
        rw [hr] at hs
        obtain ⟨hh, _⟩ := List.cons.inj hs
        rcases ih m ms hr with ⟨u, hu⟩
        exact ⟨u, by rw [← hh]; simp [hu]⟩

/-- Helper: every chunk of `split_nl` is an infix of the string. -/
theorem split_nl_chunk_infix : ∀ (s l : List Char), l ∈ split_nl s → l <:+: s := by
  intro s
  induction s with
  | nil =>
    intro l hl
    simp [split_nl] at hl
    simp [hl]
  | cons c rest ih =>
    intro l hl
    rw [split_nl] at hl
    by_cases hc : c = '\n'
    · rw [if_pos hc] at hl
      rcases List.mem_cons.mp hl with h | h
      · simp [h]
      · exact List.infix_cons (ih l h)
    · rw [if_neg hc] at hl
      cases hr : split_nl rest with
      | nil => exact absurd hr (split_nl_ne_nil rest)
      | cons m ms =>
        rw [hr] at hl
        rcases List.mem_cons.mp hl with h | h
        · subst h
          rcases split_nl_head_pre rest m ms hr with ⟨u, hu⟩
          exact List.IsPrefix.isInfix ⟨u, by simp [hu]⟩
        · exact List.infix_cons (ih l (by simp [hr, h]))

/-- Helper: a line without `'#'` contains neither marker. -/
theorem no_hash_clean (l : List Char) (h : '#' ∉ l) :
    has_sub marker_start l = false ∧ has_sub marker_end l = false := by
  constructor
  · cases hs : has_sub marker_start l
    · rfl
    · rw [has_sub_iff] at hs
      exact absurd (List.IsInfix.subset hs (by decide : '#' ∈ marker_start)) h
  · cases hs : has_sub marker_end l
    · rfl
    · rw [has_sub_iff] at hs
      exact absurd (List.IsInfix.subset hs (by decide : '#' ∈ marker_end)) h

/-- Helper: shape of an entry line — one of the four fixed prefixes followed
by the domain. -/
theorem host_entry_lines_shape (d l : List Char) (hl : l ∈ host_entry_lines d) :
    ∃ p, (p = "127.0.0.1 ".data ∨ p = "127.0.0.1 www.".data ∨
          p = "::1 ".data ∨ p = "::1 www.".data) ∧ l = p ++ d := by
  simp only [host_entry_lines, List.mem_cons, List.mem_singleton,
    List.not_mem_nil, or_false] at hl
  rcases hl with h | h | h | h
  · exact ⟨"127.0.0.1 ".data, Or.inl rfl, h⟩
  · exact ⟨"127.0.0.1 www.".data, Or.inr (Or.inl rfl), h⟩
  · exact ⟨"::1 ".data, Or.inr (Or.inr (Or.inl rfl)), h⟩
  · exact ⟨"::1 www.".data, Or.inr (Or.inr (Or.inr rfl)), h⟩

/-- Helper: a character of an entry line is a character of the fixed prefix
alphabet or of the domain. -/
theorem host_entry_lines_char (d l : List Char) (c : Char) (hl : l ∈ host_entry_lines d)
    (hc : c ∈ l) : c ∈ "127.0.0.1 www.::1 ".data ∨ c ∈ d := by
  obtain ⟨p, hcases, rfl⟩ := host_entry_lines_shape d l hl
  rcases List.mem_append.mp hc with h | h
  · left
    rcases hcases with h' | h' | h' | h' <;> subst h'
    · exact (by decide : "127.0.0.1 ".data ⊆ "127.0.0.1 www.::1 ".data) h
    · exact (by decide : "127.0.0.1 www.".data ⊆ "127.0.0.1 www.::1 ".data) h
    · exact (by decide : "::1 ".data ⊆ "127.0.0.1 www.::1 ".data) h
    · exact (by decide : "::1 www.".data ⊆ "127.0.0.1 www.::1 ".data) h
  · exact Or.inr h

/-- Helper: entry lines avoid a character avoided by the fixed prefix
alphabet and by the domain. -/
theorem host_entry_lines_avoid (d l : List Char) (c : Char) (hl : l ∈ host_entry_lines d)
    (hp : c ∉ "127.0.0.1 www.::1 ".data) (hd : c ∉ d) : c ∉ l := by
  intro hc
  rcases host_entry_lines_char d l c hl hc with h | h
  · exact hp h
  · exact hd h

/-- Helper: section lines (markers and entry lines) contain no newline, for
newline-free domains. -/
theorem sec_lines_no_nl (ds : List (List Char)) (hd : ∀ d ∈ ds, '\n' ∉ d) :
    ∀ l ∈ marker_start :: (ds.flatMap host_entry_lines ++ [marker_end]), '\n' ∉ l := by
  intro l hl
  rcases List.mem_cons.mp hl with h | h
  · subst h; decide
  rcases List.mem_append.mp h with h | h
  · obtain ⟨d, hdm, hld⟩ := List.mem_flatMap.mp h
    exact host_entry_lines_avoid d l '\n' hld (by decide) (hd d hdm)
  · rw [List.mem_singleton.mp h]; decide

/-- Helper: section lines contain no carriage return, for CR-free domains. -/
theorem sec_lines_no_cr (ds : List (List Char)) (hd : ∀ d ∈ ds, '\r' ∉ d) :
    ∀ l ∈ marker_start :: (ds.flatMap host_entry_lines ++ [marker_end]), '\r' ∉ l := by
  intro l hl
  rcases List.mem_cons.mp hl with h | h
  · subst h; decide
  rcases List.mem_append.mp h with h | h
  · obtain ⟨d, hdm, hld⟩ := List.mem_flatMap.mp h
    exact host_entry_lines_avoid d l '\r' hld (by decide) (hd d hdm)
  · rw [List.mem_singleton.mp h]; decide

/-- Helper: entry lines for hash-free domains contain neither marker. -/
theorem entry_lines_clean (ds : List (List Char)) (hd : ∀ d ∈ ds, '#' ∉ d) :
    ∀ l ∈ ds.flatMap host_entry_lines,
      has_sub marker_start l = false ∧ has_sub marker_end l = false := by
  intro l hl
  obtain ⟨d, hdm, hld⟩ := List.mem_flatMap.mp hl
  exact no_hash_clean l (host_entry_lines_avoid d l '#' hld (by decide) (hd d hdm))

/-- Helper: the lines of an applied hosts file are the `strip_cr`-normalized
chunks of the trimmed cleaned prior content, followed by the fresh section
lines. -/
theorem block_domains_lines (content : List Char) (ds : List (List Char))
    (hne : ds ≠ []) (hd : ∀ d ∈ ds, '\n' ∉ d ∧ '\r' ∉ d) :
    rust_lines (block_domains_direct content ds)
      = (split_nl (trim_end (remove_gameblocker_section content))).map strip_cr
        ++ marker_start :: (ds.flatMap host_entry_lines ++ [marker_end]) := by
  have hempty : ds.isEmpty = false := by
    cases ds with
    | nil => exact absurd rfl hne
    | cons a b => rfl
  rw [block_domains_direct, if_neg (by simp [hempty]), gameblocker_section,
    rust_lines_join_affix _ _ (sec_lines_no_nl ds (fun d hdm => (hd d hdm).1))]
  congr 1
  calc (marker_start :: (ds.flatMap host_entry_lines ++ [marker_end])).map strip_cr
      = (marker_start :: (ds.flatMap host_entry_lines ++ [marker_end])).map id :=
        List.map_congr_left (fun l hl =>
          strip_cr_no_cr l (sec_lines_no_cr ds (fun d hdm => (hd d hdm).2) l hl))
    _ = marker_start :: (ds.flatMap host_entry_lines ++ [marker_end]) :=
        List.map_id _

/-- Helper: for CR-free content the chunk normalization is the identity. -/
theorem split_nl_strip_id (T : List Char) (hT : '\r' ∉ T) :
    (split_nl T).map strip_cr = split_nl T := by
  calc (split_nl T).map strip_cr
      = (split_nl T).map id :=
        List.map_congr_left (fun l hl =>
          strip_cr_no_cr l (fun hc => hT (split_nl_chars T l hl '\r' hc)))
    _ = split_nl T := List.map_id _

/-- Helper: the chunks of the trimmed cleaned content contain neither marker. -/
theorem trim_remove_chunks_clean (content : List Char) :
    ∀ l ∈ split_nl (trim_end (remove_gameblocker_section content)),
      has_sub marker_start l = false ∧ has_sub marker_end l = false := by
  intro l hl
  have hinf : l <:+: trim_end (remove_gameblocker_section content) :=
    split_nl_chunk_infix _ l hl
  have hTpre : trim_end (remove_gameblocker_section content)
      <+: remove_gameblocker_section content := trim_end_pre _
  constructor
  · cases hs : has_sub marker_start l with
    | false => rfl
    | true =>
      exfalso
      rw [has_sub_iff] at hs
      have h1 : marker_start <:+: remove_gameblocker_section content :=
        List.IsInfix.trans (List.IsInfix.trans hs hinf) (List.IsPrefix.isInfix hTpre)
      rw [remove_gameblocker_section] at h1
      obtain ⟨kl, hkl, hklinf⟩ := infix_join_mem marker_start (by decide) (by decide) _ h1
      have hcl := remove_kept_clean _ false kl hkl
      rw [← has_sub_iff] at hklinf
      simp [hklinf] at hcl
  · cases hs : has_sub marker_end l with
    | false => rfl
    | true =>
      exfalso
      rw [has_sub_iff] at hs
      have h1 : marker_end <:+: remove_gameblocker_section content :=
        List.IsInfix.trans (List.IsInfix.trans hs hinf) (List.IsPrefix.isInfix hTpre)
      rw [remove_gameblocker_section] at h1
      obtain ⟨kl, hkl, hklinf⟩ := infix_join_mem marker_end (by decide) (by decide) _ h1
      have hcl := remove_kept_clean _ false kl hkl
      rw [← has_sub_iff] at hklinf
      simp [hklinf] at hcl

/-- Helper: re-cleaning an applied hosts file recovers exactly the trimmed
cleaned prior content plus a final newline. -/
theorem remove_block_eq (content : List Char) (ds : List (List Char))
    (hne : ds ≠ []) (hd3 : ∀ d ∈ ds, '\n' ∉ d ∧ '\r' ∉ d ∧ '#' ∉ d)
    (hc : '\r' ∉ content) :
    remove_gameblocker_section (block_domains_direct content ds)
      = trim_end (remove_gameblocker_section content) ++ ['\n'] := by
  have hTnocr : '\r' ∉ trim_end (remove_gameblocker_section content) :=
    trim_remove_no_cr content hc
  rw [remove_gameblocker_section,
    block_domains_lines content ds hne (fun d hdm => ⟨(hd3 d hdm).1, (hd3 d hdm).2.1⟩),
    split_nl_strip_id _ hTnocr,
    remove_kept_append_clean _ _ (trim_remove_chunks_clean content)]
  have hsec : remove_kept
      (marker_start :: (ds.flatMap host_entry_lines ++ [marker_end])) false = [] := by
    rw [remove_kept, if_pos (by decide : has_sub marker_start marker_start = true),
      remove_kept_skip_clean _ _ (entry_lines_clean ds (fun d hdm => (hd3 d hdm).2.2)),
      remove_kept, if_neg (by decide : ¬ has_sub marker_start marker_end = true),
      if_pos (by decide : has_sub marker_end marker_end = true)]
    rfl
  rw [hsec, List.append_nil]
  exact join_split _

/-- Helper: the four entry lines of one domain are pairwise distinct (their
fixed prefixes have pairwise different lengths). -/
theorem host_entry_lines_nodup (d : List Char) : (host_entry_lines d).Nodup := by
  have hlen : ∀ p q : List Char, p.length ≠ q.length → ¬ p ++ d = q ++ d := by
    intro p q hpq h
    have := congrArg List.length h
    simp at this
    omega
  simp only [host_entry_lines, List.nodup_cons, List.mem_cons, List.mem_singleton,
    List.not_mem_nil, or_false, List.nodup_nil, and_true, not_or, not_false_eq_true]
  refine ⟨⟨?_, ?_, ?_⟩, ⟨?_, ?_⟩, ?_⟩ <;> apply hlen <;> decide

/-- Helper: entry lines of distinct, non-`www.`-overlapping domains are
pairwise distinct across domains. -/
theorem host_entries_nodup (ds : List (List Char)) (hnd : ds.Nodup)
    (hw : ∀ d1 ∈ ds, ∀ d2 ∈ ds, d1 ≠ 'w' :: 'w' :: 'w' :: '.' :: d2) :
    (ds.flatMap host_entry_lines).Nodup := by
  rw [List.nodup_flatMap]
  refine ⟨fun d _ => host_entry_lines_nodup d, ?_⟩
  have hp : ds.Pairwise (fun a b => a ≠ b) := hnd
  refine List.Pairwise.imp_of_mem ?_ hp
  intro a b ha hb hne
  intro x hx1 hx2
  obtain ⟨p1, hc1, hx1'⟩ := host_entry_lines_shape a x hx1
  obtain ⟨p2, hc2, hx2'⟩ := host_entry_lines_shape b x hx2
  have heq : p1 ++ a = p2 ++ b := by rw [← hx1', ← hx2']
  have e1 : ("127.0.0.1 ".data : List Char)
      = ['1', '2', '7', '.', '0', '.', '0', '.', '1', ' '] := rfl
  have e2 : ("127.0.0.1 www.".data : List Char)
      = ['1', '2', '7', '.', '0', '.', '0', '.', '1', ' ', 'w', 'w', 'w', '.'] := rfl
  have e3 : ("::1 ".data : List Char) = [':', ':', '1', ' '] := rfl
  have e4 : ("::1 www.".data : List Char)
      = [':', ':', '1', ' ', 'w', 'w', 'w', '.'] := rfl
  rcases hc1 with h | h | h | h <;> rcases hc2 with g | g | g | g <;> subst h <;> subst g <;>
    simp only [e1, e2, e3, e4, List.cons_append, List.nil_append] at heq <;>
      simp only [List.cons.injEq, true_and] at heq <;>
        first
        | exact hne heq
        | exact hw a ha b hb heq
        | exact hw b hb a ha heq.symm
        | simp at heq

/-- C7 counterexample: with both `x` and `www.x` blocked, the fresh region
contains the entry line `127.0.0.1 www.x` twice; and on content containing a
line ending in `"\r\r\n"`, applying twice differs from applying once (each
pass strips one trailing `'\r'`). -/
theorem block_domains_not_idempotent_counterexample :
    (rust_lines (block_domains_direct [] ["x".data, "www.x".data])).count
        ("127.0.0.1 www.x".data) = 2 ∧
    block_domains_direct (block_domains_direct ("ab\r\r\nX\n".data) ["d".data]) ["d".data]
      ≠ block_domains_direct ("ab\r\r\nX\n".data) ["d".data] := by
  constructor
  · decide
  · decide

/-- C7 (amended): for a non-empty domain set whose domains contain no
newline, carriage return or `'#'`, applied to content containing no carriage
return, the hosts-file reconciliation is idempotent (applying twice yields
the same content as applying once) and the managed region appears exactly
once — exactly one line contains the start marker and exactly one contains
the end marker.  The fresh region has no duplicate entry lines provided the
domain set is duplicate-free and no domain is the `www.`-prefixed form of
another (the counterexample shows duplicates otherwise). -/
theorem block_domains_direct_idempotent (content : List Char) (ds : List (List Char))
    (hne : ds ≠ [])
    (hd : ∀ d ∈ ds, '\n' ∉ d ∧ '\r' ∉ d ∧ '#' ∉ d)
    (hc : '\r' ∉ content) :
    block_domains_direct (block_domains_direct content ds) ds
      = block_domains_direct content ds ∧
    ((rust_lines (block_domains_direct content ds)).filter
        (fun l => has_sub marker_start l)).length = 1 ∧
    ((rust_lines (block_domains_direct content ds)).filter
        (fun l => has_sub marker_end l)).length = 1 ∧
    (ds.Nodup → (∀ d1 ∈ ds, ∀ d2 ∈ ds, d1 ≠ 'w' :: 'w' :: 'w' :: '.' :: d2) →
      (ds.flatMap host_entry_lines).Nodup) := by
  have hempty : ds.isEmpty = false := by
    cases ds with
    | nil => exact absurd rfl hne
    | cons a b => rfl
  have hTnocr := trim_remove_no_cr content hc
  have hlines := block_domains_lines content ds hne
    (fun d hdm => ⟨(hd d hdm).1, (hd d hdm).2.1⟩)
  refine ⟨?_, ?_, ?_, fun h1 h2 => host_entries_nodup ds h1 h2⟩
  · calc block_domains_direct (block_domains_direct content ds) ds
        = trim_end (remove_gameblocker_section (block_domains_direct content ds))
            ++ gameblocker_section ds := by
          generalize block_domains_direct content ds = X
          rw [block_domains_direct, if_neg (by simp [hempty])]
      _ = trim_end (trim_end (remove_gameblocker_section content) ++ ['\n'])
            ++ gameblocker_section ds := by
          rw [remove_block_eq content ds hne hd hc]
      _ = trim_end (remove_gameblocker_section content) ++ gameblocker_section ds := by
          rw [trim_end_append_nl, trim_end_idem]
      _ = block_domains_direct content ds := by
          rw [block_domains_direct, if_neg (by simp [hempty])]
  · rw [hlines, split_nl_strip_id _ hTnocr, List.filter_append]
    have hfil1 : (split_nl (trim_end (remove_gameblocker_section content))).filter
        (fun l => has_sub marker_start l) = [] := by
      rw [List.filter_eq_nil_iff]
      intro l hl
      simp [(trim_remove_chunks_clean content l hl).1]
    have hfil2 : (ds.flatMap host_entry_lines).filter
        (fun l => has_sub marker_start l) = [] := by
      rw [List.filter_eq_nil_iff]
      intro l hl
      simp [(entry_lines_clean ds (fun d hdm => (hd d hdm).2.2) l hl).1]
    rw [hfil1, List.nil_append, List.filter_cons, List.filter_append, hfil2,
      List.nil_append]
    simp [(by decide : has_sub marker_start marker_start = true),
      (by decide : has_sub marker_start marker_end = false)]
  · rw [hlines, split_nl_strip_id _ hTnocr, List.filter_append]
    have hfil1 : (split_nl (trim_end (remove_gameblocker_section content))).filter
        (fun l => has_sub marker_end l) = [] := by
      rw [List.filter_eq_nil_iff]
      intro l hl
      simp [(trim_remove_chunks_clean content l hl).2]
    have hfil2 : (ds.flatMap host_entry_lines).filter
        (fun l => has_sub marker_end l) = [] := by
      rw [List.filter_eq_nil_iff]
      intro l hl
      simp [(entry_lines_clean ds (fun d hdm => (hd d hdm).2.2) l hl).2]
    rw [hfil1, List.nil_append, List.filter_cons, List.filter_append, hfil2,
      List.nil_append]
    simp [(by decide : has_sub marker_end marker_start = false),
      (by decide : has_sub marker_end marker_end = true)]

theorem block_domains_direct_idempotent_witness :
    (([("example.com".data : List Char)] ≠ []) ∧
      (∀ d ∈ [("example.com".data : List Char)], '\n' ∉ d ∧ '\r' ∉ d ∧ '#' ∉ d) ∧
      '\r' ∉ ("x\n".data : List Char)) ∧
    (block_domains_direct (block_domains_direct ("x\n".data) [("example.com".data)])
        [("example.com".data)]
      = block_domains_direct ("x\n".data) [("example.com".data)] ∧
    ((rust_lines (block_domains_direct ("x\n".data) [("example.com".data)])).filter
        (fun l => has_sub marker_start l)).length = 1 ∧
    ((rust_lines (block_domains_direct ("x\n".data) [("example.com".data)])).filter
        (fun l => has_sub marker_end l)).length = 1 ∧
    (([("example.com".data : List Char)]).Nodup →
      (∀ d1 ∈ [("example.com".data : List Char)],
        ∀ d2 ∈ [("example.com".data : List Char)],
          d1 ≠ 'w' :: 'w' :: 'w' :: '.' :: d2) →
      (([("example.com".data : List Char)]).flatMap host_entry_lines).Nodup)) :=
  ⟨⟨by decide, by decide, by decide⟩,
   block_domains_direct_idempotent ("x\n".data) [("example.com".data)]
     (by decide) (by decide) (by decide)⟩
